import Mathlib

/-!
Shallow embedding of the keccak256 repository (keccak256.py): an
Ethereum-variant Keccak-256 hash built from the Keccak-f[1600] permutation
and a sponge construction.  Lanes are unsigned 64-bit integers modelled as
Nat values kept below 2 ^ 64 by the operations themselves; Python byte
strings are modelled as List Nat with entries below 256.  Mutating methods
are rendered as functions returning the updated object; Python assert
statements are rendered as Option-returning checked variants.
-/

namespace Keccak

/-- RoundConstants: the 24 Keccak round constants, one per permutation
round, XORed into lane (0,0) during iota. -/
def RoundConstants : List Nat := [
  0x0000000000000001,
  0x0000000000008082,
  0x800000000000808a,
  0x8000000080008000,
  0x000000000000808b,
  0x0000000080000001,
  0x8000000080008081,
  0x8000000000008009,
  0x000000000000008a,
  0x0000000000000088,
  0x0000000080008009,
  0x000000008000000a,
  0x000000008000808b,
  0x800000000000008b,
  0x8000000000008089,
  0x8000000000008003,
  0x8000000000008002,
  0x8000000000000080,
  0x000000000000800a,
  0x800000008000000a,
  0x8000000080008081,
  0x8000000000008080,
  0x0000000080000001,
  0x8000000080008008]

/-- RotationConstants: the 5x5 table of per-lane rotation amounts, indexed
by RotationConstants[y][x]. -/
def RotationConstants : List (List Nat) := [
  [0, 1, 62, 28, 27],
  [36, 44, 6, 55, 20],
  [3, 10, 43, 25, 39],
  [41, 45, 15, 21, 8],
  [18, 2, 61, 56, 14]]

/-- Masks: in the source a precomputed list with Masks[i] = (1 << i) - 1;
rendered as the indexing function. -/
def Masks (i : Nat) : Nat := (1 <<< i) - 1

/-- bits2bytes(x) = (x + 7) // 8 : ceiling division by 8. -/
def bits2bytes (x : Nat) : Nat := (x + 7) / 8

/-- rol(value, left, bits): circular left rotation of a bits-wide value,
computed as (value >> (bits - left)) | ((value & Masks[bits - left]) << left). -/
def rol (value left bits : Nat) : Nat :=
  let top := value >>> (bits - left)
  let bot := (value &&& Masks (bits - left)) <<< left
  bot ||| top

/-- multirate_padding(used_bytes, align_bytes): the Keccak multi-rate
padding bytes (0x01 start marker, zero fill, 0x80 end marker; 0x81 when a
single byte carries both markers). -/
def multirate_padding (used_bytes align_bytes : Nat) : List Nat :=
  let padlen0 := align_bytes - used_bytes
  let padlen := if padlen0 = 0 then align_bytes else padlen0
  if padlen = 1 then [0x81]
  else [0x01] ++ List.replicate (padlen - 2) 0x00 ++ [0x80]

/-- Python list read s[x][y] on the 5x5 lane matrix (an out-of-range read,
which never happens on well-formed states, yields 0). -/
def sget (s : List (List Nat)) (x y : Nat) : Nat := (s.getD x []).getD y 0

/-- Python in-place write s[x][y] = v, rendered functionally (an
out-of-range write, which never happens on well-formed states, is a no-op). -/
def sset (s : List (List Nat)) (x y v : Nat) : List (List Nat) :=
  s.set x ((s.getD x []).set y v)

/-- Python slice read l[i : i + 8]. -/
def slice8 (l : List Nat) (i : Nat) : List Nat := (l.drop i).take 8

/-- Python slice write out[i : i + 8] = v (v always has exactly 8 entries
at the call sites). -/
def setSlice8 (out : List Nat) (i : Nat) (v : List Nat) : List Nat :=
  out.take i ++ v ++ out.drop (i + 8)

/-- The loop nest for y in rangeH: for x in rangeW: as a list of (y, x)
pairs, y outer and x inner. -/
def pairsYX : List (Nat × Nat) :=
  (List.range 5).flatMap fun y => (List.range 5).map fun x => (y, x)

/-- The loop nest for x in rangeW: for y in rangeH: as a list of (x, y)
pairs, x outer and y inner. -/
def pairsXY : List (Nat × Nat) :=
  (List.range 5).flatMap fun x => (List.range 5).map fun y => (x, y)

/-- reduce(xor, l) from functools/operator: left fold of XOR over a list,
seeded with its head (the source only applies it to the non-empty columns). -/
def reduceXor : List Nat → Nat
  | [] => 0
  | h :: t => t.foldl (fun r v => r ^^^ v) h

/-- Python (~v) & m on non-negative big integers: m with the bits of v
cleared, i.e. bitwise m AND NOT v, which as a Nat equals m ^^^ (m &&& v). -/
def notAnd (v m : Nat) : Nat := m ^^^ (m &&& v)

/-- KeccakState: a 5x5 matrix s of 64-bit lanes, indexed s[x][y], together
with the configured bitrate and total width b in bits. -/
structure KeccakState where
  bitrate : Nat
  b : Nat
  s : List (List Nat)
  deriving DecidableEq, Repr

/-- KeccakState.bitrate_bytes = bits2bytes(bitrate). -/
def KeccakState.bitrate_bytes (st : KeccakState) : Nat := bits2bytes st.bitrate

/-- KeccakState.lanew = b // 25 : the lane width in bits. -/
def KeccakState.lanew (st : KeccakState) : Nat := st.b / 25

/-- KeccakState.zero(): a fresh all-zero 5x5 matrix. -/
def KeccakState.zero : List (List Nat) := List.replicate 5 (List.replicate 5 0)

/-- KeccakState.lane2bytes(s, w): the w-bit lane s serialized little-endian,
one byte per 8 bits, least significant byte first. -/
def lane2bytes (s w : Nat) : List Nat :=
  (List.range (bits2bytes w)).map fun k => (s >>> (8 * k)) &&& 0xFF

/-- KeccakState.bytes2lane(bb): little-endian deserialization, folding the
reversed byte list with r = (r << 8) | b. -/
def bytes2lane (bb : List Nat) : Nat :=
  bb.reverse.foldl (fun r b => (r <<< 8) ||| b) 0

/-- Theta: column parities c, mixing values d[x] = c[x-1] ^ rol(c[x+1], 1),
XORed into every lane of column x.  Python (x - 1) % 5 on x in [0,4] equals
(x + 4) % 5 over Nat. -/
def thetaStep (a : List (List Nat)) (lanew : Nat) : List (List Nat) :=
  let c := (List.range 5).map fun x => reduceXor (a.getD x [])
  let d := (List.range 5).map fun x =>
    c.getD ((x + 4) % 5) 0 ^^^ rol (c.getD ((x + 1) % 5) 0) 1 lanew
  (List.range 5).map fun x => (List.range 5).map fun y => sget a x y ^^^ d.getD x 0

/-- The rho+pi relocation map: the lane at source (x, y) is written to
destination (y % 5, (2x + 3y) % 5). -/
def rhoPiDest (x y : Nat) : Nat × Nat := (y % 5, (2 * x + 3 * y) % 5)

/-- Rho and Pi, fused: every lane of a is rotated by RotationConstants[y][x]
and written at rhoPiDest into a freshly zeroed matrix, iterating x outer and
y inner as the source does. -/
def rhoPiStep (a : List (List Nat)) (lanew : Nat) : List (List Nat) :=
  pairsXY.foldl (fun bm p =>
    sset bm (rhoPiDest p.1 p.2).1 (rhoPiDest p.1 p.2).2
      (rol (sget a p.1 p.2) ((RotationConstants.getD p.2 []).getD p.1 0) lanew))
    KeccakState.zero

/-- Chi: a[x][y] = b[x][y] ^ ((~b[x+1][y]) & b[x+2][y]), row-local with
wraparound; reads only the post-rho/pi matrix b. -/
def chiStep (bm : List (List Nat)) : List (List Nat) :=
  (List.range 5).map fun x => (List.range 5).map fun y =>
    sget bm x y ^^^ notAnd (sget bm ((x + 1) % 5) y) (sget bm ((x + 2) % 5) y)

/-- Floor base-2 logarithm, rendered with a structural fuel argument (fuel
n always suffices since n halves each step); used for the round count,
where Python computes int(log(lanew, 2)). -/
def ilog2Aux : Nat → Nat → Nat
  | 0, _ => 0
  | fuel + 1, n => if 2 ≤ n then ilog2Aux fuel (n / 2) + 1 else 0

/-- Floor base-2 logarithm of n. -/
def ilog2 (n : Nat) : Nat := ilog2Aux n n

/-- One round of keccak_f: theta, rho+pi, chi, then iota (XOR the round
constant into lane (0,0)). -/
def keccak_round (a : List (List Nat)) (rc lanew : Nat) : List (List Nat) :=
  let afterChi := chiStep (rhoPiStep (thetaStep a lanew) lanew)
  sset afterChi 0 0 (sget afterChi 0 0 ^^^ rc)

/-- keccak_f(state): nr = 12 + 2 * log2(lanew) rounds (24 for 64-bit lanes;
Python computes int(log(lanew, 2)), which agrees with ilog2 at 64). -/
def keccak_f (st : KeccakState) : KeccakState :=
  let nr := 12 + 2 * ilog2 st.lanew
  let rounds := (List.range nr).foldl
    (fun a ir => keccak_round a (RoundConstants.getD ir 0) st.lanew) st.s
  { st with s := rounds }

/-- Body of KeccakState.absorb after its assert: the block is zero-extended
to the full state width and every 8-byte group, read at the running offset
i (y outer, x inner, so i = 8 * (5y + x)), is XORed into lane (x, y) as a
little-endian value. -/
def KeccakState.absorbXor (st : KeccakState) (block : List Nat) : KeccakState :=
  let blockExt := block ++ List.replicate (bits2bytes (st.b - st.bitrate)) 0
  let folded := pairsYX.foldl (fun acc p =>
      (sset acc.1 p.2 p.1 (sget acc.1 p.2 p.1 ^^^ bytes2lane (slice8 blockExt acc.2)),
       acc.2 + 8)) (st.s, 0)
  { st with s := folded.1 }

/-- KeccakState.absorb(block): asserts len(block) == bitrate_bytes (none
models the AssertionError), then XOR-absorbs the block into the rate region. -/
def KeccakState.absorb (st : KeccakState) (block : List Nat) : Option KeccakState :=
  if block.length = st.bitrate_bytes then some (st.absorbXor block) else none

/-- KeccakState.get_bytes(): the whole matrix serialized to bytes, writing
lane (x, y) little-endian at offset 8 * (5y + x) into a zero-filled buffer
of bits2bytes(b) bytes (y outer, x inner). -/
def KeccakState.get_bytes (st : KeccakState) : List Nat :=
  (pairsYX.foldl (fun acc p =>
      (setSlice8 acc.1 acc.2 (lane2bytes (sget st.s p.2 p.1) st.lanew), acc.2 + 8))
    (List.replicate (bits2bytes st.b) 0, 0)).1

/-- KeccakState.squeeze(): the first bitrate_bytes bytes of the full
serialization. -/
def KeccakState.squeeze (st : KeccakState) : List Nat :=
  st.get_bytes.take st.bitrate_bytes

/-- KeccakSponge: one KeccakState plus the pending-input byte buffer.  The
source also stores padfn and permfn; KeccakHash always passes
multirate_padding and keccak_f, which this embedding fixes. -/
structure KeccakSponge where
  state : KeccakState
  buffer : List Nat
  deriving DecidableEq, Repr

/-- KeccakSponge.copy(): deepcopy, i.e. an independent value copy. -/
def KeccakSponge.copy (sp : KeccakSponge) : KeccakSponge := sp

/-- Body of KeccakSponge.absorb_block after its assert: XOR the block into
the state and run the permutation. -/
def KeccakSponge.absorb_blockRun (sp : KeccakSponge) (block : List Nat) : KeccakSponge :=
  { sp with state := keccak_f (sp.state.absorbXor block) }

/-- KeccakSponge.absorb_block(block): asserts len(block) == bitrate_bytes
(none models the AssertionError), then absorbs and permutes. -/
def KeccakSponge.absorb_block (sp : KeccakSponge) (block : List Nat) : Option KeccakSponge :=
  if block.length = sp.state.bitrate_bytes then some (sp.absorb_blockRun block) else none

/-- The while-loop of KeccakSponge.absorb: while the buffer holds at least
bitrate_bytes bytes, absorb one block off its front (the assert of
absorb_block holds because the block is exactly bitrate_bytes long).  The
loop is rendered with a structural fuel argument; every iteration consumes
bitrate_bytes >= 1 bytes of the buffer, so any fuel of at least the buffer
length reproduces the Python loop exactly (the 0 < bitrate_bytes conjunct
is vacuous at every call site, where bitrate_bytes = 136; with
bitrate_bytes = 0 the Python loop would never terminate). -/
def KeccakSponge.absorbLoop : Nat → KeccakSponge → KeccakSponge
  | 0, sp => sp
  | fuel + 1, sp =>
    if sp.state.bitrate_bytes ≤ sp.buffer.length ∧ 0 < sp.state.bitrate_bytes then
      KeccakSponge.absorbLoop fuel
        { state := keccak_f (sp.state.absorbXor (sp.buffer.take sp.state.bitrate_bytes)),
          buffer := sp.buffer.drop sp.state.bitrate_bytes }
    else sp

/-- KeccakSponge.absorb(data): append the bytes to the buffer, then drain
all complete rate-sized blocks. -/
def KeccakSponge.absorb (sp : KeccakSponge) (data : List Nat) : KeccakSponge :=
  KeccakSponge.absorbLoop (sp.buffer ++ data).length { sp with buffer := sp.buffer ++ data }

/-- KeccakSponge.absorb_final(): pad the buffer to exactly one block via
multirate_padding, absorb it (the absert of absorb_block holds because the
buffer is shorter than bitrate_bytes at every call site), and clear the
buffer. -/
def KeccakSponge.absorb_final (sp : KeccakSponge) : KeccakSponge :=
  let padded := sp.buffer ++ multirate_padding sp.buffer.length sp.state.bitrate_bytes
  { state := keccak_f (sp.state.absorbXor padded), buffer := [] }

/-- KeccakSponge.squeeze_once(): read the rate-sized output block, then run
the permutation once more; returns the updated sponge and the block. -/
def KeccakSponge.squeeze_once (sp : KeccakSponge) : KeccakSponge × List Nat :=
  ({ sp with state := keccak_f sp.state }, sp.state.squeeze)

/-- Python slice l[:n] for an int n: for n >= 0 the first n entries, for
n < 0 all but the last -n entries. -/
def pySliceTo (l : List Nat) (n : Int) : List Nat :=
  if 0 ≤ n then l.take n.toNat else l.take (l.length - (-n).toNat)

/-- The while-loop of KeccakSponge.squeeze: extend out by one squeezed
block while len(out) < length.  The loop is rendered with a structural fuel
argument; every iteration appends a non-empty rate block (136 bytes in the
Keccak-256 configuration, and the 0 < squeeze length conjunct is vacuous
there), so any fuel of at least length.toNat reproduces the Python loop
exactly. -/
def KeccakSponge.squeezeLoop : Nat → KeccakSponge → Int → List Nat → KeccakSponge × List Nat
  | 0, sp, _, out => (sp, out)
  | fuel + 1, sp, length, out =>
    if (out.length : Int) < length ∧ 0 < sp.state.squeeze.length then
      KeccakSponge.squeezeLoop fuel (sp.squeeze_once).1 length (out ++ (sp.squeeze_once).2)
    else (sp, out)

/-- KeccakSponge.squeeze(length): accumulate squeezed blocks until at least
length bytes, then truncate with out[:length]; returns the updated sponge
and the bytes. -/
def KeccakSponge.squeeze (sp : KeccakSponge) (length : Int) : KeccakSponge × List Nat :=
  let r := KeccakSponge.squeezeLoop length.toNat sp length []
  (r.1, pySliceTo r.2 length)

/-- KeccakHash: the Keccak-256 session, a sponge with rate 1088 bits and
width 1600 bits (capacity 512 bits). -/
structure KeccakHash where
  sponge : KeccakSponge
  deriving DecidableEq, Repr

/-- KeccakHash.output_bits = 256. -/
def KeccakHash.output_bits : Nat := 256

/-- KeccakHash.digest_size = bits2bytes(256) = 32. -/
def KeccakHash.digest_size : Nat := bits2bytes KeccakHash.output_bits

/-- KeccakHash.block_size = bits2bytes(1088) = 136. -/
def KeccakHash.block_size : Nat := bits2bytes 1088

/-- KeccakHash(): a fresh session with a zeroed 1600-bit state and an empty
buffer (the constructor passes multirate_padding and keccak_f, fixed in
this embedding). -/
def KeccakHash.new : KeccakHash :=
  { sponge := { state := { bitrate := 1088, b := 1088 + 512, s := KeccakState.zero },
                buffer := [] } }

/-- KeccakHash.update(data): forwards to Sponge.absorb. -/
def KeccakHash.update (h : KeccakHash) (data : List Nat) : KeccakHash :=
  { sponge := h.sponge.absorb data }

/-- KeccakHash.digest(): finalize and squeeze a deep copy of the sponge
only; the pair returned here is (the session as the method leaves it, the
32 digest bytes).  The session component is h itself because self.sponge is
never reassigned and the copy is value-independent. -/
def KeccakHash.digestRun (h : KeccakHash) : KeccakHash × List Nat :=
  let final := h.sponge.copy
  let final2 := final.absorb_final
  (h, (final2.squeeze (KeccakHash.digest_size : Int)).2)

/-- KeccakHash.digest() return value: the 32 digest bytes. -/
def KeccakHash.digest (h : KeccakHash) : List Nat := h.digestRun.2

/-- Lowercase hexadecimal digit characters. -/
def hexChars : List Char := "0123456789abcdef".toList

/-- Python bytes.hex(): two lowercase hex characters per byte, no
separators. -/
def bytesToHex (bs : List Nat) : String :=
  String.mk (bs.flatMap fun byte => [hexChars.getD (byte / 16) '0', hexChars.getD (byte % 16) '0'])

/-- KeccakHash.hexdigest(). -/
def KeccakHash.hexdigest (h : KeccakHash) : String := bytesToHex h.digest

/-- keccak256(data): one-shot hash of a byte string. -/
def keccak256 (data : List Nat) : List Nat :=
  (KeccakHash.new.update data).digest

/-- keccak256_hex(data). -/
def keccak256_hex (data : List Nat) : String := bytesToHex (keccak256 data)

/-- A lane matrix is well formed when it is 5 rows of 5 lanes; every state
the program builds satisfies this. -/
def wfMatrix (s : List (List Nat)) : Prop :=
  s.length = 5 ∧ ∀ r ∈ s, r.length = 5

instance (s : List (List Nat)) : Decidable (wfMatrix s) := by
  unfold wfMatrix
  infer_instance

/-! ## Theorems -/

set_option maxRecDepth 1000000
set_option maxHeartbeats 4000000

/-- Claim C1: keccak256 applied to the empty byte string returns the
32-byte digest whose lowercase hex rendering is exactly
c5d2460186f7233c927e7db2dcc703c0e500b653ca82273b7bfad8045d85a470. -/
theorem claim_C1 :
    keccak256_hex [] =
        "c5d2460186f7233c927e7db2dcc703c0e500b653ca82273b7bfad8045d85a470"
      ∧ (keccak256 []).length = 32 := by
  have hb : keccak256 [] =
      [0xc5, 0xd2, 0x46, 0x01, 0x86, 0xf7, 0x23, 0x3c, 0x92, 0x7e, 0x7d, 0xb2,
       0xdc, 0xc7, 0x03, 0xc0, 0xe5, 0x00, 0xb6, 0x53, 0xca, 0x82, 0x27, 0x3b,
       0x7b, 0xfa, 0xd8, 0x04, 0x5d, 0x85, 0xa4, 0x70] := by decide
  refine ⟨?_, ?_⟩
  · show bytesToHex (keccak256 []) = _
    rw [hb]
    decide
  · rw [hb]
    decide

/-- Claim C4: for used_bytes in [0, bitrate_bytes], multirate_padding
returns exactly the prescribed byte list: with padlen = align - used
(replaced by align when 0), the result is [0x81] when padlen = 1 and
otherwise 0x01, padlen - 2 zero bytes, 0x80; in particular
padding(135, 136) = [0x81] and padding(136, 136) is a full 136-byte block
0x01, zeros, 0x80. -/
theorem claim_C4 (used align : Nat) (h : used ≤ align) :
    (used + 1 = align → multirate_padding used align = [0x81])
    ∧ (used + 2 ≤ align →
        multirate_padding used align
          = 0x01 :: (List.replicate (align - used - 2) 0x00 ++ [0x80]))
    ∧ (used = align → 2 ≤ align →
        multirate_padding used align
          = 0x01 :: (List.replicate (align - 2) 0x00 ++ [0x80]))
    ∧ multirate_padding 135 136 = [0x81]
    ∧ multirate_padding 136 136 = 0x01 :: (List.replicate 134 0x00 ++ [0x80])
    ∧ (multirate_padding 136 136).length = 136 := by
  refine ⟨?_, ?_, ?_, by decide, by decide, by decide⟩
  · intro h1
    have e : align - used = 1 := by omega
    simp [multirate_padding, e]
  · intro h2
    have e0 : align - used ≠ 0 := by omega
    have e1 : align - used ≠ 1 := by omega
    simp [multirate_padding, e0, e1]
  · intro he h2
    have e0 : align - used = 0 := by omega
    have e1 : align ≠ 1 := by omega
    simp [multirate_padding, e0, e1]

/-- Witness for claim_C4 at used = 135, align = 136. -/
theorem claim_C4_witness : multirate_padding 135 136 = [0x81] :=
  (claim_C4 135 136 (by decide)).2.2.2.1

/-- Claim C7: the rho+pi relocation map (x, y) to (y mod 5, (2x+3y) mod 5)
is a bijection on the 25 positions of the 5x5 matrix: injective, hence
every destination slot is written exactly once. -/
theorem claim_C7 :
    (∀ p q : Fin 5 × Fin 5,
        rhoPiDest p.1.val p.2.val = rhoPiDest q.1.val q.2.val → p = q)
    ∧ (∀ r : Fin 5 × Fin 5, ∃ p : Fin 5 × Fin 5,
        rhoPiDest p.1.val p.2.val = (r.1.val, r.2.val)) := by
  decide

/-- Witness for claim_C7 at p = q = (0, 0). -/
theorem claim_C7_witness :
    ((0 : Fin 5), (0 : Fin 5)) = ((0 : Fin 5), (0 : Fin 5)) :=
  claim_C7.1 ((0 : Fin 5), (0 : Fin 5)) ((0 : Fin 5), (0 : Fin 5)) (by decide)

/-- Counterexample to claim C5: a malformed (negative) output length
request does not signal invalid use; KeccakSponge.squeeze(-1) returns
normally with an empty byte string and an unchanged sponge. -/
theorem claim_C5_counterexample :
    KeccakHash.new.sponge.squeeze (-1) = (KeccakHash.new.sponge, []) := by
  decide

/-- Claim C5 as amended: the internal state absorb primitive does raise an
assertion error on a block whose length differs from bitrate_bytes, but
squeeze performs no validation of its length argument: for every
non-positive requested length it silently returns the empty byte string. -/
theorem claim_C5_amended :
    (∀ (st : KeccakState) (block : List Nat),
        block.length ≠ st.bitrate_bytes → st.absorb block = none)
    ∧ (∀ (sp : KeccakSponge) (n : Int), n ≤ 0 → (sp.squeeze n).2 = []) := by
  constructor
  · intro st block h
    simp [KeccakState.absorb, h]
  · intro sp n hn
    have h0 : n.toNat = 0 := Int.toNat_of_nonpos hn
    unfold KeccakSponge.squeeze
    rw [h0]
    simp [KeccakSponge.squeezeLoop, pySliceTo]

/-- Witness for claim_C5_amended: a 3-byte block is rejected by the fresh
1088-bit-rate state, and squeeze(-1) yields no bytes. -/
theorem claim_C5_amended_witness :
    KeccakHash.new.sponge.state.absorb [1, 2, 3] = none
    ∧ (KeccakHash.new.sponge.squeeze (-1)).2 = [] :=
  ⟨claim_C5_amended.1 KeccakHash.new.sponge.state [1, 2, 3] (by decide),
   claim_C5_amended.2 KeccakHash.new.sponge (-1) (by decide)⟩

/-! ### Lemmas about the absorb loop -/

/-- Absorption does not change the configured rate or width. -/
lemma absorbXor_bitrate (st : KeccakState) (block : List Nat) :
    (st.absorbXor block).bitrate = st.bitrate := by
  simp only [KeccakState.absorbXor]

/-- The permutation does not change the configured rate or width. -/
lemma keccak_f_bitrate (st : KeccakState) : (keccak_f st).bitrate = st.bitrate := rfl

/-- Neither permutation nor absorption changes the configured rate. -/
lemma bitrate_bytes_step (st : KeccakState) (block : List Nat) :
    (keccak_f (st.absorbXor block)).bitrate_bytes = st.bitrate_bytes := by
  unfold KeccakState.bitrate_bytes
  rw [keccak_f_bitrate, absorbXor_bitrate]

/-- When the loop guard fails the absorb loop is the identity, whatever the
fuel. -/
lemma absorbLoop_stop (fuel : Nat) (sp : KeccakSponge)
    (h : ¬(sp.state.bitrate_bytes ≤ sp.buffer.length ∧ 0 < sp.state.bitrate_bytes)) :
    KeccakSponge.absorbLoop fuel sp = sp := by
  cases fuel with
  | zero => rfl
  | succ fuel => simp only [KeccakSponge.absorbLoop, if_neg h]

/-- The absorb loop never changes the configured rate. -/
lemma absorbLoop_bitrate_bytes (fuel : Nat) : ∀ sp : KeccakSponge,
    (KeccakSponge.absorbLoop fuel sp).state.bitrate_bytes = sp.state.bitrate_bytes := by
  induction fuel with
  | zero => intro sp; rfl
  | succ fuel ih =>
    intro sp
    by_cases hg : sp.state.bitrate_bytes ≤ sp.buffer.length ∧ 0 < sp.state.bitrate_bytes
    · simp only [KeccakSponge.absorbLoop, if_pos hg]
      rw [ih]
      exact bitrate_bytes_step sp.state (sp.buffer.take sp.state.bitrate_bytes)
    · simp only [KeccakSponge.absorbLoop, if_neg hg]

/-- With enough fuel the absorb loop drains the buffer below one block. -/
lemma absorbLoop_buffer_lt (fuel : Nat) : ∀ sp : KeccakSponge,
    sp.buffer.length ≤ fuel → 0 < sp.state.bitrate_bytes →
    (KeccakSponge.absorbLoop fuel sp).buffer.length < sp.state.bitrate_bytes := by
  induction fuel with
  | zero =>
    intro sp h hb
    simp only [KeccakSponge.absorbLoop]
    omega
  | succ fuel ih =>
    intro sp h hb
    by_cases hg : sp.state.bitrate_bytes ≤ sp.buffer.length ∧ 0 < sp.state.bitrate_bytes
    · simp only [KeccakSponge.absorbLoop, if_pos hg]
      have hb2 : 0 < (keccak_f (sp.state.absorbXor
          (sp.buffer.take sp.state.bitrate_bytes))).bitrate_bytes := by
        rw [bitrate_bytes_step]
        exact hb
      have hlt := ih
        ⟨keccak_f (sp.state.absorbXor (sp.buffer.take sp.state.bitrate_bytes)),
          sp.buffer.drop sp.state.bitrate_bytes⟩
        (by simp only [List.length_drop]; omega) hb2
      exact lt_of_lt_of_eq hlt
        (bitrate_bytes_step sp.state (sp.buffer.take sp.state.bitrate_bytes))
    · rw [absorbLoop_stop _ _ hg]
      have hlt : ¬ sp.state.bitrate_bytes ≤ sp.buffer.length := fun hle => hg ⟨hle, hb⟩
      omega

/-- Any two sufficient fuels give the same result for the absorb loop. -/
lemma absorbLoop_fuel_eq : ∀ (f₁ : Nat) (sp : KeccakSponge) (f₂ : Nat),
    sp.buffer.length ≤ f₁ → sp.buffer.length ≤ f₂ →
    KeccakSponge.absorbLoop f₁ sp = KeccakSponge.absorbLoop f₂ sp := by
  intro f₁
  induction f₁ with
  | zero =>
    intro sp f₂ h₁ h₂
    have hg : ¬(sp.state.bitrate_bytes ≤ sp.buffer.length ∧ 0 < sp.state.bitrate_bytes) := by
      rintro ⟨hle, hpos⟩
      omega
    rw [absorbLoop_stop 0 sp hg, absorbLoop_stop f₂ sp hg]
  | succ f ih =>
    intro sp f₂ h₁ h₂
    by_cases hg : sp.state.bitrate_bytes ≤ sp.buffer.length ∧ 0 < sp.state.bitrate_bytes
    · obtain ⟨m, rfl⟩ : ∃ m, f₂ = m + 1 := ⟨f₂ - 1, by omega⟩
      simp only [KeccakSponge.absorbLoop, if_pos hg]
      apply ih
      · simp only [List.length_drop]; omega
      · simp only [List.length_drop]; omega
    · rw [absorbLoop_stop _ _ hg, absorbLoop_stop _ _ hg]

/-- Draining first and then appending d and draining again is draining the
appended buffer in one go: the absorb loop commutes with feeding more
input. -/
lemma absorbLoop_append : ∀ (f : Nat) (sp : KeccakSponge) (d : List Nat),
    sp.buffer.length ≤ f →
    KeccakSponge.absorbLoop ((KeccakSponge.absorbLoop f sp).buffer ++ d).length
        { KeccakSponge.absorbLoop f sp with
          buffer := (KeccakSponge.absorbLoop f sp).buffer ++ d }
      = KeccakSponge.absorbLoop (sp.buffer ++ d).length { sp with buffer := sp.buffer ++ d } := by
  intro f
  induction f with
  | zero => intro sp d h; rfl
  | succ f ih =>
    intro sp d h
    by_cases hg : sp.state.bitrate_bytes ≤ sp.buffer.length ∧ 0 < sp.state.bitrate_bytes
    · have hstep : KeccakSponge.absorbLoop (f + 1) sp = KeccakSponge.absorbLoop f
          { state := keccak_f (sp.state.absorbXor (sp.buffer.take sp.state.bitrate_bytes)),
            buffer := sp.buffer.drop sp.state.bitrate_bytes } := by
        simp only [KeccakSponge.absorbLoop, if_pos hg]
      rw [hstep]
      rw [ih _ d (by simp only [List.length_drop]; omega)]
      obtain ⟨m, hm⟩ : ∃ m, (sp.buffer ++ d).length = m + 1 :=
        ⟨(sp.buffer ++ d).length - 1, by simp only [List.length_append]; omega⟩
      rw [hm]
      have hg2 : ({ sp with buffer := sp.buffer ++ d } : KeccakSponge).state.bitrate_bytes ≤
            ({ sp with buffer := sp.buffer ++ d } : KeccakSponge).buffer.length ∧
          0 < ({ sp with buffer := sp.buffer ++ d } : KeccakSponge).state.bitrate_bytes := by
        refine ⟨?_, hg.2⟩
        simp only [List.length_append]
        omega
      simp only [KeccakSponge.absorbLoop, if_pos hg2]
      rw [List.take_append_of_le_length hg.1, List.drop_append_of_le_length hg.1]
      apply absorbLoop_fuel_eq
      · dsimp only
        omega
      · dsimp only
        simp only [List.length_append, List.length_drop] at hm ⊢
        omega
    · rw [absorbLoop_stop _ _ hg]

/-- Two consecutive sponge absorbs are one absorb of the concatenation. -/
lemma absorb_append (sp : KeccakSponge) (a bl : List Nat) :
    (sp.absorb a).absorb bl = sp.absorb (a ++ bl) := by
  unfold KeccakSponge.absorb
  have h := absorbLoop_append (sp.buffer ++ a).length
    { sp with buffer := sp.buffer ++ a } bl le_rfl
  simpa [List.append_assoc] using h

/-- Claim C2: updating a fresh Keccak-256 session with a then b and
digesting equals updating with the concatenation a ++ b and digesting. -/
theorem claim_C2 (a bl : List Nat) :
    ((KeccakHash.new.update a).update bl).digest
      = (KeccakHash.new.update (a ++ bl)).digest := by
  have h : (KeccakHash.new.update a).update bl = KeccakHash.new.update (a ++ bl) := by
    unfold KeccakHash.update
    simp only [absorb_append]
  rw [h]

/-- Claim C3: digest leaves the live session exactly as it was (the session
component of digestRun is the original hash object, state matrix and buffer
included), so for any session a second digest returns the same bytes and an
update after a digest behaves as if the digest had never happened; on a
session holding a, updating with b after a digest and digesting again
yields the digest of the full concatenation a ++ b absorbed so far. -/
theorem claim_C3 (h : KeccakHash) (a bl : List Nat) :
    h.digestRun.1 = h
    ∧ h.digestRun.1.digest = h.digest
    ∧ (h.digestRun.1.update bl).digest = (h.update bl).digest
    ∧ (((KeccakHash.new.update a).digestRun.1.update bl).digest
        = (KeccakHash.new.update (a ++ bl)).digest) := by
  refine ⟨rfl, rfl, rfl, ?_⟩
  have he : (KeccakHash.new.update a).update bl = KeccakHash.new.update (a ++ bl) := by
    unfold KeccakHash.update
    simp only [absorb_append]
  show ((KeccakHash.new.update a).update bl).digest = _
  rw [he]

/-- Claim C9: after any absorb call the sponge buffer holds strictly fewer
than bitrate_bytes bytes, and after absorb_final the buffer is empty. -/
theorem claim_C9 (sp : KeccakSponge) (d : List Nat) (h : 0 < sp.state.bitrate_bytes) :
    (sp.absorb d).buffer.length < sp.state.bitrate_bytes
    ∧ sp.absorb_final.buffer = [] := by
  refine ⟨?_, rfl⟩
  unfold KeccakSponge.absorb
  exact absorbLoop_buffer_lt _ _ le_rfl h

/-- Witness for claim_C9 on a fresh Keccak-256 sponge fed three bytes. -/
theorem claim_C9_witness :
    (KeccakHash.new.sponge.absorb [1, 2, 3]).buffer.length
        < KeccakHash.new.sponge.state.bitrate_bytes
    ∧ KeccakHash.new.sponge.absorb_final.buffer = [] :=
  claim_C9 KeccakHash.new.sponge [1, 2, 3] (by decide)

/-! ### Lemmas about rol -/

/-- The mask list entry is the usual power-of-two mask. -/
lemma masks_eq (i : Nat) : Masks i = 2 ^ i - 1 := by
  simp [Masks, Nat.shiftLeft_eq]

/-- Arithmetic characterization of rol on 64-bit values: the low 64 - n
bits shifted up by n, plus the high n bits moved to the bottom. -/
lemma rol_eq (v n : Nat) (hv : v < 2 ^ 64) (hn : n ≤ 64) :
    rol v n 64 = (v % 2 ^ (64 - n)) * 2 ^ n + v / 2 ^ (64 - n) := by
  unfold rol
  rw [masks_eq, Nat.shiftLeft_eq, Nat.shiftRight_eq_div_pow,
    Nat.and_pow_two_sub_one_eq_mod]
  have hsplit : 2 ^ (64 - n) * 2 ^ n = 2 ^ 64 := by
    rw [← pow_add]
    congr 1
    omega
  have hdivlt : v / 2 ^ (64 - n) < 2 ^ n := by
    apply Nat.div_lt_of_lt_mul
    rw [hsplit]
    exact hv
  have key := Nat.mul_add_lt_is_or hdivlt (v % 2 ^ (64 - n))
  calc v % 2 ^ (64 - n) * 2 ^ n ||| v / 2 ^ (64 - n)
      = 2 ^ n * (v % 2 ^ (64 - n)) ||| v / 2 ^ (64 - n) := by rw [Nat.mul_comm]
    _ = 2 ^ n * (v % 2 ^ (64 - n)) + v / 2 ^ (64 - n) := key.symm
    _ = v % 2 ^ (64 - n) * 2 ^ n + v / 2 ^ (64 - n) := by rw [Nat.mul_comm]

/-- rol keeps 64-bit values 64-bit. -/
lemma rol_lt (v n : Nat) (hv : v < 2 ^ 64) (hn : n ≤ 64) : rol v n 64 < 2 ^ 64 := by
  rw [rol_eq v n hv hn]
  have hsplit : 2 ^ (64 - n) * 2 ^ n = 2 ^ 64 := by
    rw [← pow_add]
    congr 1
    omega
  have h1 : v % 2 ^ (64 - n) < 2 ^ (64 - n) := Nat.mod_lt _ (Nat.two_pow_pos _)
  have h2 : v / 2 ^ (64 - n) < 2 ^ n := by
    apply Nat.div_lt_of_lt_mul
    rw [hsplit]
    exact hv
  calc v % 2 ^ (64 - n) * 2 ^ n + v / 2 ^ (64 - n)
      < v % 2 ^ (64 - n) * 2 ^ n + 2 ^ n := by omega
    _ = (v % 2 ^ (64 - n) + 1) * 2 ^ n := (Nat.succ_mul _ _).symm
    _ ≤ 2 ^ (64 - n) * 2 ^ n := Nat.mul_le_mul_right _ (by omega)
    _ = 2 ^ 64 := hsplit

/-- Rotating left by n and then by 64 - n restores a 64-bit value. -/
lemma rol_rol (v n : Nat) (hv : v < 2 ^ 64) (hn : n ≤ 64) :
    rol (rol v n 64) (64 - n) 64 = v := by
  have hrlt := rol_lt v n hv hn
  rw [rol_eq _ _ hrlt (by omega), rol_eq v n hv hn]
  have hn' : 64 - (64 - n) = n := by omega
  rw [hn']
  have hB : v / 2 ^ (64 - n) < 2 ^ n := by
    apply Nat.div_lt_of_lt_mul
    rw [← pow_add, show 64 - n + n = 64 by omega]
    exact hv
  have e1 : (v % 2 ^ (64 - n) * 2 ^ n + v / 2 ^ (64 - n)) % 2 ^ n = v / 2 ^ (64 - n) := by
    rw [Nat.mul_comm (v % 2 ^ (64 - n)) (2 ^ n), Nat.mul_add_mod, Nat.mod_eq_of_lt hB]
  have e2 : (v % 2 ^ (64 - n) * 2 ^ n + v / 2 ^ (64 - n)) / 2 ^ n = v % 2 ^ (64 - n) := by
    rw [Nat.mul_comm, Nat.mul_add_div (Nat.two_pow_pos n), Nat.div_eq_of_lt hB,
      Nat.add_zero]
  rw [e1, e2, Nat.mul_comm]
  exact Nat.div_add_mod v (2 ^ (64 - n))

/-- Claim C8: for every 64-bit value v, rol(v, 0) = v, and rotating by n
and then by 64 - n is the identity, with results staying 64-bit. -/
theorem claim_C8 (v : Nat) (hv : v < 2 ^ 64) :
    rol v 0 64 = v
    ∧ ∀ n : Nat, n ≤ 63 →
        rol (rol v n 64) (64 - n) 64 = v ∧ rol v n 64 < 2 ^ 64 := by
  refine ⟨?_, fun n hn => ⟨rol_rol v n hv (by omega), rol_lt v n hv (by omega)⟩⟩
  rw [rol_eq v 0 hv (by omega)]
  simp only [Nat.sub_zero, pow_zero, Nat.mul_one]
  omega

/-- Witness for claim_C8 at v = 5, n = 7. -/
theorem claim_C8_witness :
    rol 5 0 64 = 5 ∧ rol (rol 5 7 64) 57 64 = 5 ∧ rol 5 7 64 < 2 ^ 64 :=
  ⟨(claim_C8 5 (by decide)).1,
   ((claim_C8 5 (by decide)).2 7 (by decide)).1,
   ((claim_C8 5 (by decide)).2 7 (by decide)).2⟩

/-! ### Lemmas about the byte-lane mapping -/

/-- Deserializing a run of zero bytes gives the zero lane. -/
lemma bytes2lane_zero (k : Nat) : bytes2lane (List.replicate k 0) = 0 := by
  unfold bytes2lane
  rw [List.reverse_replicate]
  induction k with
  | zero => rfl
  | succ k ih =>
    rw [List.replicate_succ, List.foldl_cons]
    simpa using ih

/-- An 8-byte slice taken at offset 136 or beyond from a 136-byte block
extended with the 64 capacity zero bytes deserializes to zero. -/
lemma bytes2lane_slice_zero (block : List Nat) (hlen : block.length = 136)
    (i : Nat) (hi : 136 ≤ i) :
    bytes2lane (slice8 (block ++ List.replicate 64 0) i) = 0 := by
  unfold slice8
  rw [List.drop_append_eq_append_drop, List.drop_eq_nil_of_le (by omega),
    List.nil_append, hlen, List.drop_replicate, List.take_replicate]
  exact bytes2lane_zero _

/-- Writing through sset at one position leaves every other position of the
matrix unchanged. -/
lemma sget_sset_ne (s : List (List Nat)) (a b v x y : Nat)
    (h : a ≠ x ∨ b ≠ y) :
    sget (sset s a b v) x y = sget s x y := by
  unfold sget sset
  rcases eq_or_ne a x with rfl | hx
  · have hy : b ≠ y := h.resolve_left (fun hc => hc rfl)
    rcases Nat.lt_or_ge a s.length with has | has
    · simp only [List.getD_eq_getElem?_getD, List.getElem?_set_self has,
        Option.getD_some, List.getElem?_set_ne hy]
    · rw [List.set_eq_of_length_le has]
  · simp only [List.getD_eq_getElem?_getD, List.getElem?_set_ne hx]

/-- Reading back the position just written through sset, on a matrix where
that position is in range. -/
lemma sget_sset_self (s : List (List Nat)) (x y v : Nat)
    (hx : x < s.length) (hy : y < (s.getD x []).length) :
    sget (sset s x y v) x y = v := by
  unfold sget sset
  simp only [List.getD_eq_getElem?_getD] at hy ⊢
  rw [List.getElem?_set_self hx, Option.getD_some, List.getElem?_set_self hy,
    Option.getD_some]

/-- Every row of a well-formed matrix read through getD has five entries. -/
lemma wfMatrix_row (s : List (List Nat)) (hwf : wfMatrix s) (x : Nat) (hx : x < 5) :
    (s.getD x []).length = 5 := by
  obtain ⟨hl, hr⟩ := hwf
  apply hr
  rw [List.getD_eq_getElem?_getD, List.getElem?_eq_getElem (by omega), Option.getD_some]
  exact List.getElem_mem _

/-- sset preserves well-formedness when the written column is in range. -/
lemma wfMatrix_sset (s : List (List Nat)) (x y v : Nat) (hwf : wfMatrix s)
    (hx : x < 5) :
    wfMatrix (sset s x y v) := by
  have hrow := wfMatrix_row s hwf x hx
  obtain ⟨hl, hr⟩ := hwf
  refine ⟨by simpa [sset] using hl, ?_⟩
  intro r hrm
  rcases List.mem_or_eq_of_mem_set hrm with hm | rfl
  · exact hr r hm
  · rw [List.length_set]
    exact hrow

/-- Positions not written by the XOR-absorption fold keep their lane. -/
lemma fold_not_mem (c : Nat → Nat) :
    ∀ (ps : List (Nat × Nat)) (s : List (List Nat)) (i0 x y : Nat),
      (y, x) ∉ ps →
      sget ((ps.foldl (fun acc p =>
          (sset acc.1 p.2 p.1 (sget acc.1 p.2 p.1 ^^^ c acc.2), acc.2 + 8))
          (s, i0)).1) x y
        = sget s x y := by
  intro ps
  induction ps with
  | nil => intro s i0 x y h; rfl
  | cons p ps ih =>
    intro s i0 x y h
    rw [List.foldl_cons]
    dsimp only
    rw [ih _ _ _ _ (fun hm => h (List.mem_cons_of_mem p hm))]
    apply sget_sset_ne
    have hne : p ≠ (y, x) := fun he => h (he ▸ List.mem_cons_self p ps)
    rcases eq_or_ne p.2 x with h2 | h2
    · right
      intro h1
      apply hne
      rw [← h1, ← h2]
    · left
      exact h2

/-- The XOR-absorption fold over a pair list containing the target position
exactly once XORs into it the value read at the matching running offset. -/
lemma fold_mem_split (c : Nat → Nat) :
    ∀ (ps₁ ps₂ : List (Nat × Nat)) (s : List (List Nat)) (i0 x y : Nat),
      wfMatrix s → x < 5 → y < 5 →
      (∀ p ∈ ps₁, p.2 < 5) →
      (y, x) ∉ ps₁ → (y, x) ∉ ps₂ →
      sget (((ps₁ ++ (y, x) :: ps₂).foldl (fun acc p =>
          (sset acc.1 p.2 p.1 (sget acc.1 p.2 p.1 ^^^ c acc.2), acc.2 + 8))
          (s, i0)).1) x y
        = sget s x y ^^^ c (i0 + 8 * ps₁.length) := by
  intro ps₁
  induction ps₁ with
  | nil =>
    intro ps₂ s i0 x y hwf hx hy hb1 hn1 hn2
    rw [List.nil_append, List.foldl_cons]
    dsimp only
    rw [fold_not_mem c ps₂ _ _ _ _ hn2]
    rw [sget_sset_self s x y _ (by rw [hwf.1]; exact hx)
      (by rw [wfMatrix_row s hwf x hx]; exact hy)]
    simp only [List.length_nil, Nat.mul_zero, Nat.add_zero]
  | cons p ps₁ ih =>
    intro ps₂ s i0 x y hwf hx hy hb1 hn1 hn2
    rw [List.cons_append, List.foldl_cons]
    dsimp only
    have hp2 : p.2 < 5 := hb1 p (List.mem_cons_self p ps₁)
    rw [ih ps₂ _ _ x y (wfMatrix_sset _ _ _ _ hwf hp2) hx hy
        (fun q hq => hb1 q (List.mem_cons_of_mem p hq))
        (fun hm => hn1 (List.mem_cons_of_mem p hm)) hn2]
    rw [sget_sset_ne]
    · rw [show i0 + 8 + 8 * ps₁.length = i0 + 8 * (p :: ps₁).length from by
        simp only [List.length_cons]
        omega]
    · have hne : p ≠ (y, x) := fun he => hn1 (he ▸ List.mem_cons_self p ps₁)
      rcases eq_or_ne p.2 x with h2 | h2
      · right
        intro h1
        apply hne
        rw [← h1, ← h2]
      · left
        exact h2

/-- The XOR-absorption fold over the concrete (y, x) pair order updates the
lane at (x, y) with the value read at running offset 8 * (5y + x). -/
lemma fold_pairsYX_get (c : Nat → Nat) (s : List (List Nat)) (hwf : wfMatrix s)
    (x y : Nat) (hx : x < 5) (hy : y < 5) :
    sget ((pairsYX.foldl (fun acc p =>
        (sset acc.1 p.2 p.1 (sget acc.1 p.2 p.1 ^^^ c acc.2), acc.2 + 8))
        (s, 0)).1) x y
      = sget s x y ^^^ c (8 * (5 * y + x)) := by
  have hsplit : pairsYX
      = pairsYX.take (5 * y + x) ++ (y, x) :: pairsYX.drop (5 * y + x + 1) := by
    interval_cases x <;> interval_cases y <;> decide
  have hn1 : (y, x) ∉ pairsYX.take (5 * y + x) := by
    interval_cases x <;> interval_cases y <;> decide
  have hn2 : (y, x) ∉ pairsYX.drop (5 * y + x + 1) := by
    interval_cases x <;> interval_cases y <;> decide
  have hball : ∀ p ∈ pairsYX, p.2 < 5 := by decide
  have hb1 : ∀ p ∈ pairsYX.take (5 * y + x), p.2 < 5 :=
    fun p hp => hball p (List.mem_of_mem_take hp)
  have h25 : pairsYX.length = 25 := by decide
  have hlen : (pairsYX.take (5 * y + x)).length = 5 * y + x := by
    rw [List.length_take]
    omega
  rw [hsplit, fold_mem_split c _ _ s 0 x y hwf hx hy hb1 hn1 hn2, hlen, Nat.zero_add]

/-- On the Keccak-256 configuration, XOR-absorption updates lane (x, y)
with exactly the little-endian lane read from bytes
[8(5y + x), 8(5y + x) + 8) of the zero-extended block. -/
lemma absorbXor_sget_keccak (st : KeccakState) (block : List Nat)
    (hwf : wfMatrix st.s) (hb : st.b = 1600) (hbr : st.bitrate = 1088)
    (x y : Nat) (hx : x < 5) (hy : y < 5) :
    sget ((st.absorbXor block).s) x y
      = sget st.s x y
        ^^^ bytes2lane (slice8 (block ++ List.replicate 64 0) (8 * (5 * y + x))) := by
  have h := fold_pairsYX_get
    (fun i => bytes2lane (slice8 (block ++ List.replicate 64 0) i)) st.s hwf x y hx hy
  simp only [KeccakState.absorbXor, hb, hbr]
  exact h

/-- The serialization fold writes the images of the pair list as
consecutive 8-byte slices of the output buffer. -/
lemma write_fold_eq (f : Nat × Nat → List Nat) :
    ∀ (ps : List (Nat × Nat)) (out : List Nat) (i0 : Nat),
      (∀ p ∈ ps, (f p).length = 8) →
      i0 + 8 * ps.length ≤ out.length →
      (ps.foldl (fun acc p => (setSlice8 acc.1 acc.2 (f p), acc.2 + 8)) (out, i0)).1
        = out.take i0 ++ (ps.map f).flatten ++ out.drop (i0 + 8 * ps.length) := by
  intro ps
  induction ps with
  | nil =>
    intro out i0 h8 hle
    simp [List.take_append_drop]
  | cons p ps ih =>
    intro out i0 h8 hle
    have h8p : (f p).length = 8 := h8 p (List.mem_cons_self p ps)
    have hi8 : i0 + 8 ≤ out.length := by
      simp only [List.length_cons] at hle
      omega
    have hto : (out.take i0).length = i0 := by
      rw [List.length_take]
      omega
    have hlen2 : (setSlice8 out i0 (f p)).length = out.length := by
      unfold setSlice8
      rw [List.length_append, List.length_append, hto, h8p, List.length_drop]
      omega
    rw [List.foldl_cons]
    dsimp only
    rw [ih (setSlice8 out i0 (f p)) (i0 + 8)
        (fun q hq => h8 q (List.mem_cons_of_mem p hq))
        (by rw [hlen2]; simp only [List.length_cons] at hle; omega)]
    have hAv : (out.take i0 ++ f p).length = i0 + 8 := by
      rw [List.length_append, hto, h8p]
    have htake : (setSlice8 out i0 (f p)).take (i0 + 8) = out.take i0 ++ f p := by
      unfold setSlice8
      rw [List.take_append_eq_append_take, hAv, Nat.sub_self, List.take_zero,
        List.append_nil, List.take_of_length_le (le_of_eq hAv)]
    have hdrop : (setSlice8 out i0 (f p)).drop (i0 + 8 + 8 * ps.length)
        = out.drop (i0 + 8 + 8 * ps.length) := by
      unfold setSlice8
      rw [List.drop_append_eq_append_drop, List.drop_eq_nil_of_le (by rw [hAv]; omega),
        List.nil_append, hAv, List.drop_drop]
      congr 1
      omega
    rw [htake, hdrop, List.map_cons, List.flatten_cons]
    rw [show i0 + 8 * (p :: ps).length = i0 + 8 + 8 * ps.length from by
      simp only [List.length_cons]
      omega]
    simp only [List.append_assoc]

/-- Slicing the flattening of 8-byte chunks at offset 8k recovers chunk k. -/
lemma flatten_slice : ∀ (ls : List (List Nat)) (k : Nat),
    (∀ l ∈ ls, l.length = 8) → k < ls.length →
    slice8 ls.flatten (8 * k) = ls.getD k [] := by
  intro ls
  induction ls with
  | nil =>
    intro k h8 hk
    simp at hk
  | cons l ls ih =>
    intro k h8 hk
    have hl : l.length = 8 := h8 l (List.mem_cons_self l ls)
    cases k with
    | zero =>
      unfold slice8
      rw [Nat.mul_zero, List.drop_zero, List.flatten_cons, ← hl, List.take_left,
        List.getD_cons_zero]
    | succ k =>
      unfold slice8 at ih ⊢
      rw [List.flatten_cons, List.drop_append_eq_append_drop,
        List.drop_eq_nil_of_le (by rw [hl]; omega), List.nil_append, hl,
        show 8 * (k + 1) - 8 = 8 * k from by omega,
        ih k (fun q hq => h8 q (List.mem_cons_of_mem l hq)) (by simpa using hk),
        List.getD_cons_succ]

/-- Little-endian serialization of a 64-bit lane yields eight bytes. -/
lemma lane2bytes_length (v : Nat) : (lane2bytes v 64).length = 8 := by
  simp [lane2bytes, bits2bytes]

/-- On the Keccak-256 configuration, the full serialization places lane
(x, y) little-endian at byte offset 8 * (5y + x). -/
lemma get_bytes_slice (st : KeccakState) (hwf : wfMatrix st.s) (hb : st.b = 1600)
    (x y : Nat) (hx : x < 5) (hy : y < 5) :
    slice8 st.get_bytes (8 * (5 * y + x)) = lane2bytes (sget st.s x y) 64 := by
  have hlw : st.lanew = 64 := by
    unfold KeccakState.lanew
    rw [hb]
  simp only [KeccakState.get_bytes, hlw, hb]
  rw [write_fold_eq (fun p => lane2bytes (sget st.s p.2 p.1) 64) pairsYX _ 0
    (fun p hp => lane2bytes_length _) (by decide)]
  rw [List.take_zero, List.nil_append,
    show 0 + 8 * pairsYX.length = 200 from by decide,
    show bits2bytes 1600 = 200 from rfl, List.drop_replicate, Nat.sub_self,
    List.replicate_zero, List.append_nil]
  have hmap8 : ∀ l ∈ pairsYX.map fun p => lane2bytes (sget st.s p.2 p.1) 64,
      l.length = 8 := by
    intro l hl
    obtain ⟨p, hp, rfl⟩ := List.mem_map.mp hl
    exact lane2bytes_length _
  have h25 : pairsYX.length = 25 := by decide
  rw [flatten_slice _ (5 * y + x) hmap8 (by rw [List.length_map]; omega)]
  have hsome : pairsYX[5 * y + x]? = some (y, x) := by
    interval_cases x <;> interval_cases y <;> decide
  rw [List.getD_eq_getElem?_getD, List.getElem?_map, hsome]
  rfl

/-- Claim C6: the byte-to-lane mapping of serialization and absorption is
byte index 8 * (5y + x) for lane (x, y), little-endian within the lane (y
outer, x inner), and squeeze returns exactly the first bitrate_bytes bytes
of the serialization. -/
theorem claim_C6 (st : KeccakState) (hwf : wfMatrix st.s) (hb : st.b = 1600)
    (x y : Nat) (hx : x < 5) (hy : y < 5) :
    slice8 st.get_bytes (8 * (5 * y + x)) = lane2bytes (sget st.s x y) 64
    ∧ st.squeeze = st.get_bytes.take st.bitrate_bytes
    ∧ (st.bitrate = 1088 → ∀ block : List Nat,
        sget ((st.absorbXor block).s) x y
          = sget st.s x y
            ^^^ bytes2lane (slice8 (block ++ List.replicate 64 0) (8 * (5 * y + x)))) :=
  ⟨get_bytes_slice st hwf hb x y hx hy, rfl,
   fun hbr block => absorbXor_sget_keccak st block hwf hb hbr x y hx hy⟩

/-- Witness for claim_C6 on a fresh Keccak-256 state at (x, y) = (1, 2). -/
theorem claim_C6_witness :
    slice8 KeccakHash.new.sponge.state.get_bytes (8 * (5 * 2 + 1))
        = lane2bytes (sget KeccakHash.new.sponge.state.s 1 2) 64
    ∧ KeccakHash.new.sponge.state.squeeze
        = KeccakHash.new.sponge.state.get_bytes.take
            KeccakHash.new.sponge.state.bitrate_bytes
    ∧ (KeccakHash.new.sponge.state.bitrate = 1088 → ∀ block : List Nat,
        sget ((KeccakHash.new.sponge.state.absorbXor block).s) 1 2
          = sget KeccakHash.new.sponge.state.s 1 2
            ^^^ bytes2lane (slice8 (block ++ List.replicate 64 0) (8 * (5 * 2 + 1)))) :=
  claim_C6 KeccakHash.new.sponge.state (by decide) (by decide) 1 2 (by decide) (by decide)

/-- Claim C10: absorbing a 136-byte block only touches the rate region;
every lane (x, y) with 5y + x at least 17 is unchanged, because the block
is zero-extended there and XOR with zero is the identity. -/
theorem claim_C10 (st : KeccakState) (block : List Nat) (hwf : wfMatrix st.s)
    (hb : st.b = 1600) (hbr : st.bitrate = 1088) (hlen : block.length = 136)
    (x y : Nat) (hx : x < 5) (hy : y < 5) (hxy : 17 ≤ 5 * y + x) :
    ∃ st', st.absorb block = some st' ∧ sget st'.s x y = sget st.s x y := by
  refine ⟨st.absorbXor block, ?_, ?_⟩
  · have hcond : block.length = st.bitrate_bytes := by
      rw [hlen]
      unfold KeccakState.bitrate_bytes
      rw [hbr]
      decide
    unfold KeccakState.absorb
    rw [if_pos hcond]
  · rw [absorbXor_sget_keccak st block hwf hb hbr x y hx hy,
      bytes2lane_slice_zero block hlen _ (by omega), Nat.xor_zero]

/-- Witness for claim_C10 on a fresh Keccak-256 state, a constant 136-byte
block and the capacity lane (4, 4). -/
theorem claim_C10_witness :
    ∃ st', KeccakHash.new.sponge.state.absorb (List.replicate 136 7) = some st'
      ∧ sget st'.s 4 4 = sget KeccakHash.new.sponge.state.s 4 4 :=
  claim_C10 KeccakHash.new.sponge.state (List.replicate 136 7) (by decide) (by decide)
    (by decide) (by decide) 4 4 (by decide) (by decide) (by decide)

end Keccak
